import Mathlib

set_option maxRecDepth 100000

/-!
Shallow embedding of `poker_calculator.py` (texas hold'em probability
calculator): card model, hand evaluator, Monte-Carlo equity simulator and
outs calculator, together with theorems checking the specification's
claims against this embedding.

Randomness (`random.sample`) is modelled by passing an explicit `shuffle`
function; every theorem that depends on randomness assumes only that the
shuffle permutes the deck, and concrete witnesses instantiate it with the
identity function.  Python floats are modelled as exact rationals.
-/

namespace Poker

/-- Source `Card.SUITS = ['♠', '♥', '♦', '♣']`. -/
inductive Suit where
  | spade | heart | diamond | club
deriving DecidableEq, Repr

def SUITS : List Suit := [.spade, .heart, .diamond, .club]

/-- Source `Card.RANKS`. -/
def RANKS : List String :=
  ["2", "3", "4", "5", "6", "7", "8", "9", "10", "J", "Q", "K", "A"]

/-- Source `Card(rank, suit)`; equality and hashing are by `(rank, suit)`. -/
structure Card where
  rank : String
  suit : Suit
deriving DecidableEq, Repr

/-- Source `self.value = RANK_VALUES[rank]`, i.e. the index of the rank in `RANKS`
(0 for "2" up to 12 for "A"). -/
def Card.value (c : Card) : Int := (List.indexOf c.rank RANKS : Int)

/-- Source `Deck`: a mutable list of cards, modelled by explicit state passing. -/
structure Deck where
  cards : List Card
deriving DecidableEq, Repr

/-- Source `Deck.__init__`: `[Card(rank, suit) for suit in Card.SUITS for rank in Card.RANKS]`. -/
def Deck.new : Deck :=
  ⟨SUITS.flatMap (fun suit => RANKS.map (fun rank => Card.mk rank suit))⟩

/-- Source `Deck.remove_cards`: repeated filtering by rank-and-suit match. -/
def Deck.remove_cards (d : Deck) (cards : List Card) : Deck :=
  ⟨cards.foldl
    (fun cs card => cs.filter (fun c => !(c.rank == card.rank && c.suit == card.suit)))
    d.cards⟩

/-- Source `Deck.draw`: `random.sample(self.cards, n)`.  The random choice is
modelled by the explicit `shuffle` argument; `random.sample` raises
`ValueError` when `n` exceeds the population size, modelled as `none`.
The deck itself is returned unchanged (the method does not mutate it). -/
def Deck.draw (d : Deck) (shuffle : List Card → List Card) (n : Nat) :
    Option (List Card) × Deck :=
  (if n ≤ d.cards.length then some ((shuffle d.cards).take n) else none, d)

/-- A hand ranking `(hand_type, key_cards)` as returned by the evaluator. -/
abbrev HandRank := Nat × List Int

/-- Python `<` on lists of ints (lexicographic; a strict prefix is smaller). -/
def listLt : List Int → List Int → Bool
  | [], [] => false
  | [], _ :: _ => true
  | _ :: _, [] => false
  | a :: as, b :: bs => decide (a < b) || (a == b && listLt as bs)

/-- Python `<` on `(hand_type, key_cards)` tuples. -/
def handLt (x y : HandRank) : Bool :=
  decide (x.1 < y.1) || (x.1 == y.1 && listLt x.2 y.2)

/-- Descending sort, `sorted(ranks, reverse=True)`. -/
def sortD (l : List Int) : List Int := List.insertionSort (· ≥ ·) l

/-- The consecutive-difference check inside `HandEvaluator._is_straight`. -/
def consecChk : List Int → Bool
  | [] => true
  | [_] => true
  | a :: b :: rest => decide (b - a = 1) && consecChk (b :: rest)

/-- Source `HandEvaluator._is_straight`: sort ascending, check each gap is 1. -/
def is_straight (ranks : List Int) : Bool :=
  consecChk (List.insertionSort (· ≤ ·) ranks)

/-- The ranks appearing with multiplicity `n`:
`[r for r, count in rank_counts.items() if count == n]` -/
def countOf (ranks : List Int) (n : Nat) : List Int :=
  ranks.dedup.filter (fun r => ranks.count r == n)

/-- Source `four_rank = [r for r, count in rank_counts.items() if count == 4][0]`. -/
def four_rank (ranks : List Int) : Int := (countOf ranks 4).headI

/-- Quads kicker: `[r for r in ranks if r != four_rank][0]`. -/
def quads_kicker (ranks : List Int) : Int :=
  (ranks.filter (fun r => r != four_rank ranks)).headI

/-- Source `three_rank = [r for r, count in rank_counts.items() if count == 3][0]`. -/
def three_rank (ranks : List Int) : Int := (countOf ranks 3).headI

/-- Source `pairs[0]` where `pairs = [r for r, count in rank_counts.items() if count == 2]`
(used both as the full-house pair and as the one-pair rank). -/
def pair_rank (ranks : List Int) : Int := (countOf ranks 2).headI

/-- Trips kickers: `sorted([r for r in ranks if r != three_rank], reverse=True)`. -/
def trips_kickers (ranks : List Int) : List Int :=
  sortD (ranks.filter (fun r => r != three_rank ranks))

/-- Two-pair ranks: `sorted(pairs, reverse=True)`. -/
def tp_pairs (ranks : List Int) : List Int := sortD (countOf ranks 2)

/-- Two-pair kicker: `[r for r in ranks if r not in pairs][0]`. -/
def tp_kicker (ranks : List Int) : Int :=
  (ranks.filter (fun r => !((tp_pairs ranks).contains r))).headI

/-- One-pair kickers: `sorted([r for r in ranks if r != pair_rank], reverse=True)`. -/
def pair_kickers (ranks : List Int) : List Int :=
  sortD (ranks.filter (fun r => r != pair_rank ranks))

/-- The descending rank pattern of the ace-high wheel `A-5-4-3-2`. -/
def wheelHigh : List Int := [12, 3, 2, 1, 0]

/-- The wheel's replacement key, with the ace counted lowest. -/
def wheelKey : List Int := [3, 2, 1, 0, -1]

/-- The classification logic of `HandEvaluator._evaluate_five_cards`,
expressed over the rank values and the flush flag (the only data the
source body uses after its first three lines). -/
def eval5core (ranks : List Int) (is_flush : Bool) : HandRank :=
  let sorted0 := sortD ranks
  let isStr : Bool := if sorted0 = wheelHigh then true else is_straight sorted0
  let sorted_ranks := if sorted0 = wheelHigh then wheelKey else sorted0
  if is_flush && isStr && decide (sorted_ranks = [12, 11, 10, 9, 8]) then (9, sorted_ranks)
  else if is_flush && isStr then (8, sorted_ranks)
  else if countOf ranks 4 ≠ [] then (7, [four_rank ranks, quads_kicker ranks])
  else if countOf ranks 3 ≠ [] ∧ countOf ranks 2 ≠ [] then
    (6, [three_rank ranks, pair_rank ranks])
  else if is_flush then (5, sorted_ranks)
  else if isStr then (4, sorted_ranks)
  else if countOf ranks 3 ≠ [] then (3, three_rank ranks :: trips_kickers ranks)
  else if (countOf ranks 2).length = 2 then (2, tp_pairs ranks ++ [tp_kicker ranks])
  else if (countOf ranks 2).length = 1 then (1, pair_rank ranks :: pair_kickers ranks)
  else (0, sorted0)

/-- Source `HandEvaluator._evaluate_five_cards`. -/
def evaluate_five_cards (cards : List Card) : HandRank :=
  eval5core (cards.map Card.value) ((cards.map Card.suit).dedup.length == 1)

/-- The running-best update of `HandEvaluator.evaluate_hand`:
`if hand_type > best[0] or (hand_type == best[0] and key_cards > best[1])`. -/
def updBest (best hr : HandRank) : HandRank := if handLt best hr then hr else best

/-- Source `HandEvaluator.evaluate_hand`: `(0, [])` below five cards, otherwise the
best five-card combination.  `itertools.combinations(cards, 5)` is modelled
by `List.sublistsLen 5` (same set of combinations; the enumeration order is
immaterial because the fold keeps the maximum under a total order). -/
def evaluate_hand (cards : List Card) : HandRank :=
  if cards.length < 5 then (0, [])
  else (List.sublistsLen 5 cards).foldl
    (fun best combo => updBest best (evaluate_five_cards combo)) (0, [])

/-- Source `HandEvaluator.hand_name`. -/
def hand_name (t : Nat) : String :=
  if t = 9 then "皇家同花顺"
  else if t = 8 then "同花顺"
  else if t = 7 then "四条"
  else if t = 6 then "葫芦"
  else if t = 5 then "同花"
  else if t = 4 then "顺子"
  else if t = 3 then "三条"
  else if t = 2 then "两对"
  else if t = 1 then "一对"
  else if t = 0 then "高牌"
  else "未知"

/-- Source `PokerCalculator.get_hand_strength`. -/
def get_hand_strength (hole_cards community_cards : List Card) : Int × String :=
  let all_cards := hole_cards ++ community_cards
  if all_cards.length ≥ 5 then
    ((evaluate_hand all_cards).1, hand_name (evaluate_hand all_cards).1)
  else (-1, "尚未形成完整手牌")

/-- The dictionary returned by `PokerCalculator.calculate_win_probability`
(Python floats modelled as exact rationals) -/
structure EquityResult where
  win_rate : Rat
  tie_rate : Rat
  loss_rate : Rat
  simulations : Nat
  current_hand : String
deriving DecidableEq, Repr

/-- The data produced by one iteration of the simulation loop. -/
structure TrialData where
  full_community : List Card
  my_hand : HandRank
  opp_holes : List (List Card)
  opp_hands : List HandRank
deriving DecidableEq, Repr

/-- The `for _ in range(num_opponents)` loop of
`PokerCalculator.calculate_win_probability`: draw 2 cards per opponent,
evaluate `opponent_hole + full_community`, then remove the drawn cards
from the simulation deck. -/
def oppLoop (shuffle : Nat → List Card → List Card) (full_community : List Card) :
    Nat → Nat → Deck → List (List Card) → List HandRank →
    Option (List (List Card) × List HandRank)
  | 0, _, _, holes, hands => some (holes.reverse, hands.reverse)
  | k + 1, i, sim_deck, holes, hands =>
    ((sim_deck.draw (shuffle i) 2).1).bind fun opponent_hole =>
      let opponent_hand := evaluate_hand (opponent_hole ++ full_community)
      oppLoop shuffle full_community k (i + 1) (sim_deck.remove_cards opponent_hole)
        (opponent_hole :: holes) (opponent_hand :: hands)

/-- One iteration of the `for _ in range(num_simulations)` loop: rebuild the
deck without the known cards, complete the community, then deal the
opponents. -/
def runTrial (shuffle : Nat → List Card → List Card) (hole_cards community_cards : List Card)
    (num_opponents : Nat) : Option TrialData :=
  let known_cards := hole_cards ++ community_cards
  let sim_deck := Deck.new.remove_cards known_cards
  let cards_needed := 5 - community_cards.length
  (if cards_needed > 0 then (sim_deck.draw (shuffle 0) cards_needed).1 else some []).bind
    fun remaining_community =>
      let full_community := community_cards ++ remaining_community
      let sim_deck := sim_deck.remove_cards remaining_community
      let my_hand := evaluate_hand (hole_cards ++ full_community)
      (oppLoop shuffle full_community num_opponents 1 sim_deck [] []).bind
        fun oh => some ⟨full_community, my_hand, oh.1, oh.2⟩

/-- Python `max` on a list of hand rankings (`ValueError` on an empty list,
modelled as `none`; keeps the current element unless a later one is
strictly greater). -/
def pythonMax : List HandRank → Option HandRank
  | [] => none
  | h :: t => some (t.foldl (fun m x => if handLt m x then x else m) h)

/-- The win/tie/loss tally across `num_simulations` trials. -/
def simLoop (shuffle : Nat → Nat → List Card → List Card)
    (hole_cards community_cards : List Card) (num_opponents : Nat) :
    Nat → Option (Nat × Nat × Nat)
  | 0 => some (0, 0, 0)
  | n + 1 =>
    (simLoop shuffle hole_cards community_cards num_opponents n).bind fun wtl =>
      (runTrial (shuffle n) hole_cards community_cards num_opponents).bind fun td =>
        (pythonMax td.opp_hands).bind fun best =>
          some (if handLt best td.my_hand then (wtl.1 + 1, wtl.2.1, wtl.2.2)
            else if td.my_hand = best then (wtl.1, wtl.2.1 + 1, wtl.2.2)
            else (wtl.1, wtl.2.1, wtl.2.2 + 1))

/-- Source `PokerCalculator.calculate_win_probability`.  The source performs no
input validation: it goes straight into the trial loop and builds the
result dictionary from the final counters.  Building the dictionary divides
the counters by `num_simulations`, which in Python raises
`ZeroDivisionError` when `num_simulations = 0`; that error path is modelled
by the `none` guard. -/
def calculate_win_probability (shuffle : Nat → Nat → List Card → List Card)
    (hole_cards community_cards : List Card)
    (num_opponents num_simulations : Nat) : Option EquityResult :=
  (simLoop shuffle hole_cards community_cards num_opponents num_simulations).bind
    fun wtl =>
      if num_simulations = 0 then none
      else
        some ⟨(wtl.1 : Rat) / (num_simulations : Rat),
          (wtl.2.1 : Rat) / (num_simulations : Rat),
          (wtl.2.2 : Rat) / (num_simulations : Rat),
          num_simulations,
          hand_name (evaluate_hand (hole_cards ++ community_cards)).1⟩

/-- The dictionary returned by `PokerCalculator.calculate_outs`; the
at-river early return carries only the outs count and description, so the
other two fields are optional -/
structure OutsResult where
  outs : Nat
  immediate_odds : Option Rat
  improving_cards : Option (List Card)
  description : String
deriving DecidableEq, Repr

/-- The improving-card scan of `PokerCalculator.calculate_outs`: deck cards
whose addition strictly raises the hand category -/
def improvingCards (hole_cards community_cards : List Card) : List Card :=
  (Deck.new.remove_cards (hole_cards ++ community_cards)).cards.filter
    fun card =>
      decide ((evaluate_hand (hole_cards ++ community_cards)).1 <
        (evaluate_hand (hole_cards ++ community_cards ++ [card])).1)

/-- Source `PokerCalculator.calculate_outs`. -/
def calculate_outs (hole_cards community_cards : List Card) : OutsResult :=
  if community_cards.length ≥ 5 then ⟨0, none, none, "已经是河牌圈"⟩
  else
    let deck := Deck.new.remove_cards (hole_cards ++ community_cards)
    let improving := improvingCards hole_cards community_cards
    let outs := improving.length
    let remaining_cards := deck.cards.length
    let immediate_odds : Rat :=
      if remaining_cards > 0 then (outs : Rat) / (remaining_cards : Rat) else 0
    ⟨outs, some immediate_odds, some (improving.take 10),
      "有" ++ toString outs ++ "张out牌可以改进手牌"⟩

/-! ### The Python comparison is a strict total order -/

lemma listLt_irrefl : ∀ l : List Int, listLt l l = false
  | [] => rfl
  | a :: as => by simp [listLt, listLt_irrefl as]

lemma listLt_trans : ∀ {a b c : List Int},
    listLt a b = true → listLt b c = true → listLt a c = true
  | [], _ :: _, _ :: _, _, _ => rfl
  | a :: as, b :: bs, c :: cs, h₁, h₂ => by
    simp only [listLt, Bool.or_eq_true, decide_eq_true_eq, Bool.and_eq_true,
      beq_iff_eq] at h₁ h₂ ⊢
    rcases h₁ with h₁ | ⟨rfl, h₁⟩
    · rcases h₂ with h₂ | ⟨rfl, h₂⟩
      · exact Or.inl (h₁.trans h₂)
      · exact Or.inl h₁
    · rcases h₂ with h₂ | ⟨rfl, h₂⟩
      · exact Or.inl h₂
      · exact Or.inr ⟨rfl, listLt_trans h₁ h₂⟩

lemma listLt_conn : ∀ {a b : List Int},
    listLt a b = false → listLt b a = false → a = b
  | [], [], _, _ => rfl
  | [], _ :: _, h, _ => by simp [listLt] at h
  | _ :: _, [], _, h => by simp [listLt] at h
  | a :: as, b :: bs, h₁, h₂ => by
    simp only [listLt, Bool.or_eq_false_iff, decide_eq_false_iff_not] at h₁ h₂
    obtain ⟨hab, h₁⟩ := h₁
    obtain ⟨hba, h₂⟩ := h₂
    have e : a = b := by omega
    subst e
    simp only [beq_self_eq_true, Bool.true_and] at h₁ h₂
    rw [listLt_conn h₁ h₂]

lemma handLt_trans {a b c : HandRank} (h₁ : handLt a b = true)
    (h₂ : handLt b c = true) : handLt a c = true := by
  simp only [handLt, Bool.or_eq_true, decide_eq_true_eq, Bool.and_eq_true,
    beq_iff_eq] at h₁ h₂ ⊢
  rcases h₁ with h₁ | ⟨e₁, h₁⟩
  · rcases h₂ with h₂ | ⟨e₂, h₂⟩
    · exact Or.inl (h₁.trans h₂)
    · exact Or.inl (e₂ ▸ h₁)
  · rcases h₂ with h₂ | ⟨e₂, h₂⟩
    · exact Or.inl (e₁ ▸ h₂)
    · exact Or.inr ⟨e₁.trans e₂, listLt_trans h₁ h₂⟩

lemma handLt_conn {a b : HandRank} (h₁ : handLt a b = false)
    (h₂ : handLt b a = false) : a = b := by
  simp only [handLt, Bool.or_eq_false_iff, decide_eq_false_iff_not] at h₁ h₂
  obtain ⟨hab, h₁⟩ := h₁
  obtain ⟨hba, h₂⟩ := h₂
  have e : a.1 = b.1 := by omega
  rw [e, beq_self_eq_true, Bool.true_and] at h₁
  rw [← e, beq_self_eq_true, Bool.true_and] at h₂
  exact Prod.ext e (listLt_conn h₁ h₂)

lemma handLt_irrefl (a : HandRank) : handLt a a = false := by
  simp [handLt, listLt_irrefl]

lemma handLt_asymm {a b : HandRank} (h : handLt a b = true) : handLt b a = false := by
  cases h' : handLt b a
  · rfl
  · have := handLt_trans h h'
    rw [handLt_irrefl] at this
    exact absurd this (by simp)

lemma updBest_pos {b h : HandRank} (h' : handLt b h = true) : updBest b h = h := by
  unfold updBest
  rw [h']
  simp

lemma updBest_neg {b h : HandRank} (h' : handLt b h = false) : updBest b h = b := by
  unfold updBest
  rw [h']
  simp

lemma updBest_rightComm (z x y : HandRank) :
    updBest (updBest z x) y = updBest (updBest z y) x := by
  cases hzx : handLt z x <;> cases hzy : handLt z y
  · rw [updBest_neg hzx, updBest_neg hzy, updBest_neg hzx]
  · rw [updBest_neg hzx, updBest_pos hzy]
    have hyx : handLt y x = false := by
      cases h : handLt y x
      · rfl
      · rw [handLt_trans hzy h] at hzx
        exact Bool.noConfusion hzx
    rw [updBest_neg hyx]
  · rw [updBest_pos hzx, updBest_neg hzy]
    have hxy : handLt x y = false := by
      cases h : handLt x y
      · rfl
      · rw [handLt_trans hzx h] at hzy
        exact Bool.noConfusion hzy
    rw [updBest_neg hxy, updBest_pos hzx]
  · rw [updBest_pos hzx, updBest_pos hzy]
    cases hxy : handLt x y
    · rw [updBest_neg hxy]
      cases hyx : handLt y x
      · rw [updBest_neg hyx]
        exact handLt_conn hxy hyx
      · rw [updBest_pos hyx]
    · rw [updBest_pos hxy, updBest_neg (handLt_asymm hxy)]

/-! ### Permutation invariance machinery -/

lemma sortD_perm_eq {l₁ l₂ : List Int} (h : l₁.Perm l₂) : sortD l₁ = sortD l₂ := by
  haveI : IsAntisymm Int (· ≥ ·) := ⟨fun a b h1 h2 => le_antisymm h2 h1⟩
  exact List.eq_of_perm_of_sorted
    ((List.perm_insertionSort _ l₁).trans (h.trans (List.perm_insertionSort _ l₂).symm))
    (List.sorted_insertionSort _ l₁) (List.sorted_insertionSort _ l₂)

lemma countOf_perm {l₁ l₂ : List Int} (h : l₁.Perm l₂) (n : Nat) :
    (countOf l₁ n).Perm (countOf l₂ n) := by
  unfold countOf
  rw [List.filter_congr (fun r _ => by rw [h.count_eq] :
    ∀ r ∈ l₁.dedup, (l₁.count r == n) = (l₂.count r == n))]
  exact h.dedup.filter _

lemma mem_countOf {l : List Int} {n : Nat} {r : Int} :
    r ∈ countOf l n ↔ r ∈ l ∧ l.count r = n := by
  simp [countOf, List.mem_filter, List.mem_dedup]

lemma countOf_nodup (l : List Int) (n : Nat) : (countOf l n).Nodup :=
  (List.nodup_dedup l).filter _

lemma perm_eq_of_len_le_one {l₁ l₂ : List Int} (h : l₁.Perm l₂)
    (hl : l₁.length ≤ 1) : l₁ = l₂ := by
  match l₁, hl with
  | [], _ => rw [h.symm.eq_nil]
  | [a], _ => rw [List.perm_singleton.mp h.symm]

lemma headI_eq_of_perm_allEq {l₁ l₂ : List Int} (h : l₁.Perm l₂)
    (hall : ∀ a ∈ l₁, ∀ b ∈ l₁, a = b) : l₁.headI = l₂.headI := by
  cases l₁ with
  | nil => rw [h.symm.eq_nil]
  | cons a t =>
    cases hl₂ : l₂ with
    | nil =>
      subst hl₂
      exact absurd h.eq_nil (by simp)
    | cons b t₂ =>
      subst hl₂
      exact hall a (List.mem_cons_self _ _) b (h.mem_iff.mpr (List.mem_cons_self _ _))

lemma sum_map_add (f g : Int → Nat) : ∀ vals : List Int,
    (vals.map (fun v => f v + g v)).sum = (vals.map f).sum + (vals.map g).sum
  | [] => rfl
  | v :: vs => by
    simp only [List.map_cons, List.sum_cons, sum_map_add f g vs]
    omega

lemma count_indicator (c : Int) : ∀ vals : List Int,
    (vals.map (fun v => if v = c then (1 : Nat) else 0)).sum = vals.count c
  | [] => rfl
  | v :: vs => by
    simp only [List.map_cons, List.sum_cons, count_indicator c vs, List.count_cons]
    by_cases h : v = c
    · subst h
      simp [Nat.add_comm]
    · simp [h, Ne.symm h]

lemma sum_counts_le : ∀ (l vals : List Int), vals.Nodup →
    (vals.map (fun v => l.count v)).sum ≤ l.length
  | [], vals, _ => by simp [List.count_nil]
  | c :: t, vals, h => by
    have e : vals.map (fun v => (c :: t).count v)
        = vals.map (fun v => t.count v + if v = c then 1 else 0) :=
      List.map_congr_left fun a _ => by
        rw [List.count_cons]
        by_cases hac : a = c
        · simp [hac]
        · simp [hac, Ne.symm hac]
    rw [e, sum_map_add, count_indicator]
    have h1 : vals.count c ≤ 1 := List.nodup_iff_count_le_one.mp h c
    have h2 := sum_counts_le t vals h
    simp only [List.length_cons]
    omega

lemma count_pair_le {l : List Int} {a b : Int} (hab : a ≠ b) :
    l.count a + l.count b ≤ l.length := by
  have := sum_counts_le l [a, b] (by simp [hab])
  simpa using this

lemma count_triple_le {l : List Int} {a b c : Int} (hab : a ≠ b) (hac : a ≠ c)
    (hbc : b ≠ c) : l.count a + l.count b + l.count c ≤ l.length := by
  have := sum_counts_le l [a, b, c] (by simp [hab, hac, hbc])
  simp at this
  omega

lemma count_quad_le {l : List Int} {a b c d : Int} (hab : a ≠ b) (hac : a ≠ c)
    (had : a ≠ d) (hbc : b ≠ c) (hbd : b ≠ d) (hcd : c ≠ d) :
    l.count a + l.count b + l.count c + l.count d ≤ l.length := by
  have := sum_counts_le l [a, b, c, d] (by simp [hab, hac, had, hbc, hbd, hcd])
  simp at this
  omega

/-- In a 5-element list at most one rank can appear `n ≥ 3` times. -/
lemma countOf_subsingleton {l : List Int} {n : Nat} (h5 : l.length = 5)
    (hn : 3 ≤ n) : (countOf l n).length ≤ 1 := by
  cases hco : countOf l n with
  | nil => simp
  | cons a t =>
    cases t with
    | nil => simp
    | cons b u =>
      exfalso
      have hnd : (countOf l n).Nodup := countOf_nodup l n
      rw [hco] at hnd
      have hab : a ≠ b := by
        intro e
        subst e
        simp at hnd
      have ha : l.count a = n := (mem_countOf.mp (hco ▸ List.mem_cons_self _ _)).2
      have hb : l.count b = n :=
        (mem_countOf.mp (hco ▸ List.mem_cons_of_mem a (List.mem_cons_self _ _))).2
      have := count_pair_le (l := l) hab
      omega

/-- With a triple present, at most one rank can be paired in 5 cards. -/
lemma countOf_two_subsingleton {l : List Int} (h5 : l.length = 5)
    (h3 : countOf l 3 ≠ []) : (countOf l 2).length ≤ 1 := by
  obtain ⟨t, ht⟩ := List.exists_mem_of_ne_nil _ h3
  obtain ⟨htl, htc⟩ := mem_countOf.mp ht
  cases hco : countOf l 2 with
  | nil => simp
  | cons a s =>
    cases s with
    | nil => simp
    | cons b u =>
      exfalso
      have hnd : (countOf l 2).Nodup := countOf_nodup l 2
      rw [hco] at hnd
      have hab : a ≠ b := by
        intro e
        subst e
        simp at hnd
      have ha : l.count a = 2 := (mem_countOf.mp (hco ▸ List.mem_cons_self _ _)).2
      have hb : l.count b = 2 :=
        (mem_countOf.mp (hco ▸ List.mem_cons_of_mem a (List.mem_cons_self _ _))).2
      have hta : t ≠ a := fun e => by rw [e, ha] at htc; omega
      have htb : t ≠ b := fun e => by rw [e, hb] at htc; omega
      have := count_triple_le (l := l) hta htb hab
      omega

lemma headI_mem {l : List Int} (h : l ≠ []) : l.headI ∈ l := by
  cases l with
  | nil => exact absurd rfl h
  | cons a t => exact List.mem_cons_self _ _

lemma countOf_eq_high {r₁ r₂ : List Int} (h5 : r₁.length = 5) (hp : r₁.Perm r₂)
    {n : Nat} (hn : 3 ≤ n) : countOf r₁ n = countOf r₂ n :=
  perm_eq_of_len_le_one (countOf_perm hp n) (countOf_subsingleton h5 hn)

lemma four_rank_eq {r₁ r₂ : List Int} (h5 : r₁.length = 5) (hp : r₁.Perm r₂) :
    four_rank r₁ = four_rank r₂ := by
  unfold four_rank
  rw [countOf_eq_high h5 hp (by omega)]

lemma three_rank_eq {r₁ r₂ : List Int} (h5 : r₁.length = 5) (hp : r₁.Perm r₂) :
    three_rank r₁ = three_rank r₂ := by
  unfold three_rank
  rw [countOf_eq_high h5 hp (by omega)]

lemma quads_kicker_allEq {l : List Int} (h5 : l.length = 5)
    (h4 : countOf l 4 ≠ []) :
    ∀ a ∈ l.filter (fun r => r != four_rank l),
      ∀ b ∈ l.filter (fun r => r != four_rank l), a = b := by
  intro a ha b hb
  by_contra hab
  obtain ⟨hal, hane⟩ := List.mem_filter.mp ha
  obtain ⟨hbl, hbne⟩ := List.mem_filter.mp hb
  have hane' : a ≠ four_rank l := by simpa using hane
  have hbne' : b ≠ four_rank l := by simpa using hbne
  have hf4 : l.count (four_rank l) = 4 :=
    (mem_countOf.mp (headI_mem h4)).2
  have hca : 0 < l.count a := List.count_pos_iff.mpr hal
  have hcb : 0 < l.count b := List.count_pos_iff.mpr hbl
  have := count_triple_le (l := l) (Ne.symm hane') (Ne.symm hbne') hab
  omega

lemma quads_kicker_eq {r₁ r₂ : List Int} (h5 : r₁.length = 5) (hp : r₁.Perm r₂)
    (h4 : countOf r₁ 4 ≠ []) : quads_kicker r₁ = quads_kicker r₂ := by
  unfold quads_kicker
  rw [← four_rank_eq h5 hp]
  exact headI_eq_of_perm_allEq (hp.filter _) (quads_kicker_allEq h5 h4)

lemma pair_rank_eq_of_three {r₁ r₂ : List Int} (h5 : r₁.length = 5)
    (hp : r₁.Perm r₂) (h3 : countOf r₁ 3 ≠ []) : pair_rank r₁ = pair_rank r₂ := by
  unfold pair_rank
  rw [perm_eq_of_len_le_one (countOf_perm hp 2) (countOf_two_subsingleton h5 h3)]

lemma pair_rank_eq_of_len1 {r₁ r₂ : List Int} (hp : r₁.Perm r₂)
    (h1 : (countOf r₁ 2).length ≤ 1) : pair_rank r₁ = pair_rank r₂ := by
  unfold pair_rank
  rw [perm_eq_of_len_le_one (countOf_perm hp 2) h1]

lemma trips_kickers_eq {r₁ r₂ : List Int} (h5 : r₁.length = 5) (hp : r₁.Perm r₂) :
    trips_kickers r₁ = trips_kickers r₂ := by
  unfold trips_kickers
  rw [← three_rank_eq h5 hp]
  exact sortD_perm_eq (hp.filter _)

lemma tp_pairs_eq {r₁ r₂ : List Int} (hp : r₁.Perm r₂) :
    tp_pairs r₁ = tp_pairs r₂ := by
  unfold tp_pairs
  exact sortD_perm_eq (countOf_perm hp 2)

lemma mem_tp_pairs {l : List Int} {r : Int} :
    r ∈ tp_pairs l ↔ r ∈ countOf l 2 := by
  unfold tp_pairs sortD
  exact (List.perm_insertionSort _ _).mem_iff

lemma tp_kicker_allEq {l : List Int} (h5 : l.length = 5)
    (h2 : (countOf l 2).length = 2) :
    ∀ a ∈ l.filter (fun r => !((tp_pairs l).contains r)),
      ∀ b ∈ l.filter (fun r => !((tp_pairs l).contains r)), a = b := by
  intro a ha b hb
  by_contra hab
  obtain ⟨hal, hane⟩ := List.mem_filter.mp ha
  obtain ⟨hbl, hbne⟩ := List.mem_filter.mp hb
  have hanotin : a ∉ countOf l 2 := by
    intro hmem
    have hc : (tp_pairs l).contains a = true := List.elem_iff.mpr (mem_tp_pairs.mpr hmem)
    rw [Bool.not_eq_true'] at hane
    rw [hc] at hane
    exact Bool.noConfusion hane
  have hbnotin : b ∉ countOf l 2 := by
    intro hmem
    have hc : (tp_pairs l).contains b = true := List.elem_iff.mpr (mem_tp_pairs.mpr hmem)
    rw [Bool.not_eq_true'] at hbne
    rw [hc] at hbne
    exact Bool.noConfusion hbne
  match hco : countOf l 2, h2 with
  | [p, q], _ =>
    have hnd : (countOf l 2).Nodup := countOf_nodup l 2
    rw [hco] at hnd
    have hpq : p ≠ q := by
      intro e
      subst e
      simp at hnd
    have hcp : l.count p = 2 := (mem_countOf.mp (hco ▸ List.mem_cons_self _ _)).2
    have hcq : l.count q = 2 :=
      (mem_countOf.mp (hco ▸ List.mem_cons_of_mem p (List.mem_cons_self _ _))).2
    rw [hco] at hanotin hbnotin
    simp only [List.mem_cons, List.not_mem_nil, or_false, not_or] at hanotin hbnotin
    have hca : 0 < l.count a := List.count_pos_iff.mpr hal
    have hcb : 0 < l.count b := List.count_pos_iff.mpr hbl
    have := count_quad_le (l := l) hpq (Ne.symm hanotin.1) (Ne.symm hbnotin.1)
      (Ne.symm hanotin.2) (Ne.symm hbnotin.2) hab
    omega

lemma tp_kicker_eq {r₁ r₂ : List Int} (h5 : r₁.length = 5) (hp : r₁.Perm r₂)
    (h2 : (countOf r₁ 2).length = 2) : tp_kicker r₁ = tp_kicker r₂ := by
  unfold tp_kicker
  rw [← tp_pairs_eq hp]
  exact headI_eq_of_perm_allEq (hp.filter _) (tp_kicker_allEq h5 h2)

lemma pair_kickers_eq {r₁ r₂ : List Int} (hp : r₁.Perm r₂)
    (h1 : (countOf r₁ 2).length ≤ 1) : pair_kickers r₁ = pair_kickers r₂ := by
  unfold pair_kickers
  rw [← pair_rank_eq_of_len1 hp h1]
  exact sortD_perm_eq (hp.filter _)

-- `_evaluate_five_cards`'s classification depends only on the multiset of
-- rank values (for a fixed flush flag).
set_option maxHeartbeats 2000000 in
lemma eval5core_perm {r₁ r₂ : List Int} (h5 : r₁.length = 5) (hp : r₁.Perm r₂)
    (f : Bool) : eval5core r₁ f = eval5core r₂ f := by
  have hs : sortD r₂ = sortD r₁ := (sortD_perm_eq hp).symm
  have h4 : countOf r₂ 4 = countOf r₁ 4 := (countOf_eq_high h5 hp (by omega)).symm
  have h3 : countOf r₂ 3 = countOf r₁ 3 := (countOf_eq_high h5 hp (by omega)).symm
  have hl2 : (countOf r₂ 2).length = (countOf r₁ 2).length :=
    (countOf_perm hp 2).length_eq.symm
  have hfr : four_rank r₂ = four_rank r₁ := (four_rank_eq h5 hp).symm
  have htr : three_rank r₂ = three_rank r₁ := (three_rank_eq h5 hp).symm
  have htp : tp_pairs r₂ = tp_pairs r₁ := (tp_pairs_eq hp).symm
  have htk : trips_kickers r₂ = trips_kickers r₁ := (trips_kickers_eq h5 hp).symm
  have hne2 : (countOf r₂ 2 = []) = (countOf r₁ 2 = []) := by
    apply propext
    rw [← List.length_eq_zero, ← List.length_eq_zero, hl2]
  simp only [eval5core, hs, h4, h3, hl2, hfr, htr, htp, htk, ne_eq, hne2]
  split_ifs <;>
    first
      | rfl
      | (rename_i hq
         rw [quads_kicker_eq h5 hp hq])
      | (rename_i hfh
         rw [pair_rank_eq_of_three h5 hp hfh.1])
      | (rename_i h2p
         rw [tp_kicker_eq h5 hp h2p])
      | (rename_i h1p
         rw [pair_rank_eq_of_len1 hp (by omega), pair_kickers_eq hp (by omega)])

lemma evaluate_five_cards_perm {c₁ c₂ : List Card} (h5 : c₁.length = 5)
    (hp : c₁.Perm c₂) : evaluate_five_cards c₁ = evaluate_five_cards c₂ := by
  unfold evaluate_five_cards
  have hsu : (c₁.map Card.suit).dedup.length = (c₂.map Card.suit).dedup.length :=
    ((hp.map Card.suit).dedup).length_eq
  rw [hsu]
  exact eval5core_perm (by simpa using h5) (hp.map Card.value) _

/-- Lift of `_evaluate_five_cards` to the multiset of a 5-card combo. -/
def eval5m : Multiset Card → HandRank :=
  Quotient.lift
    (fun c : List Card => if c.length = 5 then evaluate_five_cards c else (0, []))
    (fun a b hab => by
      have hab' : a.Perm b := hab
      beta_reduce
      by_cases h : a.length = 5
      · rw [if_pos h, if_pos (hab'.length_eq ▸ h), evaluate_five_cards_perm h hab']
      · rw [if_neg h, if_neg (fun hb => h (by rw [hab'.length_eq]; exact hb))])

lemma foldl_eval5 (l : List Card) :
    (List.sublistsLen 5 l).foldl
        (fun best combo => updBest best (evaluate_five_cards combo)) (0, [])
      = ((List.sublistsLen 5 l).map (fun c => eval5m (Multiset.ofList c))).foldl
          updBest ((0 : Nat), ([] : List Int)) := by
  rw [List.foldl_map]
  refine (List.foldl_ext _ _ _ fun a c hc => ?_).symm
  have h5 : c.length = 5 := (List.mem_sublistsLen.mp hc).2
  show updBest a (eval5m (Multiset.ofList c)) = updBest a (evaluate_five_cards c)
  have : eval5m (Multiset.ofList c) = evaluate_five_cards c := by
    show (if c.length = 5 then evaluate_five_cards c else (0, [])) = _
    rw [if_pos h5]
  rw [this]

/-- Permutation invariance of `evaluate_hand`. -/
lemma evaluate_hand_perm {c₁ c₂ : List Card} (hp : c₁.Perm c₂) :
    evaluate_hand c₁ = evaluate_hand c₂ := by
  unfold evaluate_hand
  by_cases h : c₁.length < 5
  · rw [if_pos h, if_pos (hp.length_eq ▸ h)]
  · rw [if_neg h, if_neg (hp.length_eq ▸ h)]
    have hmap : ((List.sublistsLen 5 c₁).map (fun c => Multiset.ofList c)).Perm
        ((List.sublistsLen 5 c₂).map (fun c => Multiset.ofList c)) := by
      have h' := Multiset.powersetCardAux_perm (n := 5) hp
      rwa [Multiset.powersetCardAux_eq_map_coe,
        Multiset.powersetCardAux_eq_map_coe] at h'
    have hm2 : ((List.sublistsLen 5 c₁).map (fun c => eval5m (Multiset.ofList c))).Perm
        ((List.sublistsLen 5 c₂).map (fun c => eval5m (Multiset.ofList c))) := by
      have h'' := hmap.map eval5m
      rwa [List.map_map, List.map_map] at h''
    rw [foldl_eval5 c₁, foldl_eval5 c₂]
    exact hm2.foldl_eq' (fun x _ y _ z => updBest_rightComm z x y) _

/-! ### Deck lemmas -/

lemma card_filter_pred {c card : Card} :
    (!(c.rank == card.rank && c.suit == card.suit)) = true ↔ c ≠ card := by
  constructor
  · intro h e
    subst e
    simp at h
  · intro h
    rw [Bool.not_eq_eq_eq_not, Bool.not_true, Bool.and_eq_false_iff]
    by_cases hr : c.rank = card.rank
    · refine Or.inr ?_
      rw [beq_eq_false_iff_ne]
      intro hs
      exact h (by cases c; cases card; simp_all)
    · exact Or.inl (by rwa [beq_eq_false_iff_ne])

lemma remove_cards_cons (d : Deck) (card : Card) (rest : List Card) :
    d.remove_cards (card :: rest)
      = (Deck.mk (d.cards.filter
          (fun c => !(c.rank == card.rank && c.suit == card.suit)))).remove_cards rest :=
  rfl

lemma mem_remove_cards {l : List Card} : ∀ {d : Deck} {c : Card},
    c ∈ (d.remove_cards l).cards ↔ c ∈ d.cards ∧ c ∉ l := by
  induction l with
  | nil => intro d c; simp [Deck.remove_cards]
  | cons card rest ih =>
    intro d c
    rw [remove_cards_cons, ih]
    simp only [List.mem_filter, List.mem_cons, not_or]
    constructor
    · rintro ⟨⟨hmem, hpred⟩, hrest⟩
      exact ⟨hmem, card_filter_pred.mp hpred, hrest⟩
    · rintro ⟨hmem, hne, hrest⟩
      exact ⟨⟨hmem, card_filter_pred.mpr hne⟩, hrest⟩

lemma remove_cards_nodup {l : List Card} : ∀ {d : Deck}, d.cards.Nodup →
    (d.remove_cards l).cards.Nodup := by
  induction l with
  | nil => intro d h; exact h
  | cons card rest ih =>
    intro d h
    rw [remove_cards_cons]
    exact ih (h.filter _)

lemma filter_ne_card_length : ∀ (cs : List Card) (card : Card),
    (cs.filter (fun c => !(c.rank == card.rank && c.suit == card.suit))).length
      = cs.length - cs.count card
  | [], _ => rfl
  | c :: cs, card => by
    have hcle := List.count_le_length (a := card) (l := cs)
    have hrec := filter_ne_card_length cs card
    rw [List.count_cons, List.filter_cons]
    by_cases h : c = card
    · have hp : (!(c.rank == card.rank && c.suit == card.suit)) = false := by
        rw [h]
        simp
      have hb : (c == card) = true := by rw [beq_iff_eq]; exact h
      rw [hp, hb]
      simp only [Bool.false_eq_true, if_false, if_true, List.length_cons]
      omega
    · have hp : (!(c.rank == card.rank && c.suit == card.suit)) = true :=
        card_filter_pred.mpr h
      have hb : (c == card) = false := by rw [beq_eq_false_iff_ne]; exact h
      rw [hp, hb]
      simp only [Bool.false_eq_true, if_false, if_true, List.length_cons]
      omega

lemma remove_cards_length {l : List Card} : ∀ {d : Deck}, d.cards.Nodup →
    l.Nodup → (∀ c ∈ l, c ∈ d.cards) →
    (d.remove_cards l).cards.length = d.cards.length - l.length := by
  induction l with
  | nil => intro d _ _ _; simp [Deck.remove_cards]
  | cons card rest ih =>
    intro d hd hl hsub
    rw [remove_cards_cons]
    have hcnt : d.cards.count card = 1 := by
      have h1 := List.nodup_iff_count_le_one.mp hd card
      have h2 := List.count_pos_iff.mpr (hsub card (List.mem_cons_self _ _))
      omega
    have hlen : (d.cards.filter
        (fun c => !(c.rank == card.rank && c.suit == card.suit))).length
          = d.cards.length - 1 := by
      rw [filter_ne_card_length, hcnt]
    rw [ih (hd.filter _) hl.of_cons (fun c hc => by
      rw [show (Deck.mk (d.cards.filter
          (fun c => !(c.rank == card.rank && c.suit == card.suit)))).cards
        = d.cards.filter _ from rfl]
      rw [List.mem_filter]
      refine ⟨hsub c (List.mem_cons_of_mem _ hc), card_filter_pred.mpr ?_⟩
      intro e
      subst e
      exact (List.nodup_cons.mp hl).1 hc)]
    rw [show (Deck.mk (d.cards.filter
        (fun c => !(c.rank == card.rank && c.suit == card.suit)))).cards
      = d.cards.filter _ from rfl]
    rw [hlen]
    simp only [List.length_cons]
    omega

lemma draw_inv {d : Deck} {sh : List Card → List Card}
    (hsh : (sh d.cards).Perm d.cards) {n : Nat} {out : List Card}
    (h : (d.draw sh n).1 = some out) :
    out.length = n ∧ (∀ c ∈ out, c ∈ d.cards) ∧
      (d.cards.Nodup → out.Nodup) ∧ n ≤ d.cards.length := by
  unfold Deck.draw at h
  by_cases hn : n ≤ d.cards.length
  · rw [if_pos hn] at h
    have hout : out = (sh d.cards).take n := (Option.some.inj h).symm
    subst hout
    refine ⟨?_, ?_, ?_, hn⟩
    · rw [List.length_take]
      exact min_eq_left (by rw [hsh.length_eq]; exact hn)
    · intro c hc
      exact hsh.mem_iff.mp ((List.take_sublist _ _).subset hc)
    · intro hnd
      exact (List.take_sublist _ _).nodup (hsh.nodup_iff.mpr hnd)
  · rw [if_neg hn] at h
    exact Option.noConfusion h

/-! ### Simulation loop lemmas -/

lemma oppLoop_spec (shuffle : Nat → List Card → List Card)
    (hsh : ∀ i l, (shuffle i l).Perm l) (fc : List Card) :
    ∀ (k i : Nat) (d : Deck) (holes : List (List Card)) (hands : List HandRank)
      (res : List (List Card) × List HandRank),
      d.cards.Nodup →
      oppLoop shuffle fc k i d holes hands = some res →
      ∃ newHoles : List (List Card),
        res.1 = holes.reverse ++ newHoles ∧
        res.2.length = hands.length + k ∧
        newHoles.flatten.Nodup ∧ (∀ c ∈ newHoles.flatten, c ∈ d.cards) := by
  intro k
  induction k with
  | zero =>
    intro i d holes hands res hnd h
    refine ⟨[], ?_, ?_, by simp, by simp⟩
    · rw [← Option.some.inj h]
      simp
    · rw [← Option.some.inj h]
      simp
  | succ k ih =>
    intro i d holes hands res hnd h
    rw [oppLoop, Option.bind_eq_some] at h
    obtain ⟨oh, hdraw, hrec⟩ := h
    obtain ⟨hlen2, hsubd, hnd2, _⟩ := draw_inv (hsh i d.cards) hdraw
    obtain ⟨nh, hres1, hres2, hndnh, hsubnh⟩ :=
      ih (i + 1) (d.remove_cards oh) (oh :: holes) _ res
        (remove_cards_nodup hnd) hrec
    refine ⟨oh :: nh, ?_, ?_, ?_, ?_⟩
    · rw [hres1]
      simp
    · rw [hres2]
      simp only [List.length_cons]
      omega
    · rw [List.flatten_cons, List.nodup_append]
      refine ⟨hnd2 hnd, hndnh, ?_⟩
      intro c hcoh hcnh
      exact (mem_remove_cards.mp (hsubnh c hcnh)).2 hcoh
    · intro c hc
      rw [List.flatten_cons, List.mem_append] at hc
      rcases hc with hc | hc
      · exact hsubd c hc
      · exact (mem_remove_cards.mp (hsubnh c hc)).1

lemma oppLoop_isSome (shuffle : Nat → List Card → List Card)
    (hsh : ∀ i l, (shuffle i l).Perm l) (fc : List Card) :
    ∀ (k i : Nat) (d : Deck) (holes : List (List Card)) (hands : List HandRank),
      d.cards.Nodup → 2 * k ≤ d.cards.length →
      ∃ res, oppLoop shuffle fc k i d holes hands = some res := by
  intro k
  induction k with
  | zero => intro i d holes hands _ _; exact ⟨_, rfl⟩
  | succ k ih =>
    intro i d holes hands hnd hfit
    have h2 : 2 ≤ d.cards.length := by omega
    have hdraw : (d.draw (shuffle i) 2).1 = some ((shuffle i d.cards).take 2) := by
      unfold Deck.draw
      rw [if_pos h2]
    obtain ⟨hlen2, hsubd, hnd2, _⟩ := draw_inv (hsh i d.cards) hdraw
    have hreclen : (d.remove_cards ((shuffle i d.cards).take 2)).cards.length
        = d.cards.length - 2 := by
      rw [remove_cards_length hnd (hnd2 hnd) hsubd, hlen2]
    obtain ⟨res, hres⟩ := ih (i + 1) (d.remove_cards ((shuffle i d.cards).take 2))
      (((shuffle i d.cards).take 2) :: holes) _
      (remove_cards_nodup hnd) (by omega)
    refine ⟨res, ?_⟩
    rw [oppLoop, Option.bind_eq_some]
    exact ⟨_, hdraw, hres⟩

lemma deck_new_nodup : Deck.new.cards.Nodup := by decide

lemma runTrial_spec (shuffle : Nat → List Card → List Card)
    (hsh : ∀ i l, (shuffle i l).Perm l)
    (hole_cards community_cards : List Card) (num_opponents : Nat) (td : TrialData)
    (h : runTrial shuffle hole_cards community_cards num_opponents = some td) :
    td.opp_hands.length = num_opponents ∧
    ((hole_cards ++ community_cards).Nodup →
      (hole_cards ++ td.full_community ++ td.opp_holes.flatten).Nodup) := by
  rw [runTrial, Option.bind_eq_some] at h
  obtain ⟨rc, hrc, h2⟩ := h
  rw [Option.bind_eq_some] at h2
  obtain ⟨oh, hopp, hsome⟩ := h2
  have htd : td = ⟨community_cards ++ rc,
      evaluate_hand (hole_cards ++ (community_cards ++ rc)), oh.1, oh.2⟩ :=
    (Option.some.inj hsome).symm
  have hnd0 : (Deck.new.remove_cards (hole_cards ++ community_cards)).cards.Nodup :=
    remove_cards_nodup deck_new_nodup
  have hrcprops : rc.Nodup ∧ ∀ c ∈ rc,
      c ∈ (Deck.new.remove_cards (hole_cards ++ community_cards)).cards := by
    by_cases hgt : 5 - community_cards.length > 0
    · rw [if_pos hgt] at hrc
      obtain ⟨_, hsub, hnd, _⟩ := draw_inv (hsh 0 _) hrc
      exact ⟨hnd hnd0, hsub⟩
    · rw [if_neg hgt] at hrc
      have : rc = [] := (Option.some.inj hrc).symm
      subst this
      exact ⟨List.nodup_nil, by simp⟩
  obtain ⟨hrcnd, hrcsub⟩ := hrcprops
  obtain ⟨nh, hoh1, hoh2, hnhnd, hnhsub⟩ :=
    oppLoop_spec shuffle hsh _ num_opponents 1 _ [] [] oh
      (remove_cards_nodup hnd0) hopp
  constructor
  · rw [htd]
    show oh.2.length = num_opponents
    rw [hoh2]
    simp
  · intro hknown
    rw [htd]
    show (hole_cards ++ (community_cards ++ rc) ++ oh.1.flatten).Nodup
    rw [hoh1]
    simp only [List.reverse_nil, List.nil_append]
    rw [← List.append_assoc]
    have hexcl0 : ∀ c ∈ rc, c ∉ hole_cards ++ community_cards := fun c hc =>
      (mem_remove_cards.mp (hrcsub c hc)).2
    have hexcl1 : ∀ c ∈ nh.flatten, c ∉ rc ∧ c ∉ hole_cards ++ community_cards :=
      fun c hc => by
        have h1 := mem_remove_cards.mp (hnhsub c hc)
        exact ⟨h1.2, (mem_remove_cards.mp h1.1).2⟩
    rw [List.nodup_append]
    refine ⟨?_, hnhnd, ?_⟩
    · rw [List.nodup_append]
      exact ⟨hknown, hrcnd, fun c hc hc' => hexcl0 c hc' hc⟩
    · intro c hc hc'
      rw [List.mem_append] at hc
      rcases hc with hc | hc
      · exact (hexcl1 c hc').2 hc
      · exact (hexcl1 c hc').1 hc

lemma runTrial_isSome (shuffle : Nat → List Card → List Card)
    (hsh : ∀ i l, (shuffle i l).Perm l)
    (hole_cards community_cards : List Card) (num_opponents : Nat)
    (hfit : (5 - community_cards.length) + 2 * num_opponents
      ≤ (Deck.new.remove_cards (hole_cards ++ community_cards)).cards.length) :
    ∃ td, runTrial shuffle hole_cards community_cards num_opponents = some td := by
  have hnd0 : (Deck.new.remove_cards (hole_cards ++ community_cards)).cards.Nodup :=
    remove_cards_nodup deck_new_nodup
  by_cases hgt : 5 - community_cards.length > 0
  · have hle : 5 - community_cards.length
        ≤ (Deck.new.remove_cards (hole_cards ++ community_cards)).cards.length := by
      omega
    have hdraw : ((Deck.new.remove_cards (hole_cards ++ community_cards)).draw
        (shuffle 0) (5 - community_cards.length)).1
          = some ((shuffle 0 (Deck.new.remove_cards
              (hole_cards ++ community_cards)).cards).take
                (5 - community_cards.length)) := by
      unfold Deck.draw
      rw [if_pos hle]
    obtain ⟨hlen, hsub, hnd, _⟩ := draw_inv (hsh 0 _) hdraw
    have hlen1 : ((Deck.new.remove_cards (hole_cards ++ community_cards)).remove_cards
        ((shuffle 0 (Deck.new.remove_cards
          (hole_cards ++ community_cards)).cards).take
            (5 - community_cards.length))).cards.length
        = (Deck.new.remove_cards (hole_cards ++ community_cards)).cards.length
            - (5 - community_cards.length) := by
      rw [remove_cards_length hnd0 (hnd hnd0) hsub, hlen]
    obtain ⟨res, hres⟩ := oppLoop_isSome shuffle hsh
      (community_cards ++ ((shuffle 0 (Deck.new.remove_cards
        (hole_cards ++ community_cards)).cards).take (5 - community_cards.length)))
      num_opponents 1
      ((Deck.new.remove_cards (hole_cards ++ community_cards)).remove_cards
        ((shuffle 0 (Deck.new.remove_cards
          (hole_cards ++ community_cards)).cards).take
            (5 - community_cards.length))) [] []
      (remove_cards_nodup hnd0) (by omega)
    have hif : (if 5 - community_cards.length > 0
        then ((Deck.new.remove_cards (hole_cards ++ community_cards)).draw
          (shuffle 0) (5 - community_cards.length)).1
        else some []) = some ((shuffle 0 (Deck.new.remove_cards
            (hole_cards ++ community_cards)).cards).take
              (5 - community_cards.length)) := by
      rw [if_pos hgt]
      exact hdraw
    simp only [runTrial, hif, Option.some_bind, hres]
    exact ⟨_, rfl⟩
  · have hlen1 : ((Deck.new.remove_cards
        (hole_cards ++ community_cards)).remove_cards []).cards.length
        = (Deck.new.remove_cards (hole_cards ++ community_cards)).cards.length := by
      rw [remove_cards_length hnd0 List.nodup_nil (by simp)]
      simp
    obtain ⟨res, hres⟩ := oppLoop_isSome shuffle hsh (community_cards ++ [])
      num_opponents 1
      ((Deck.new.remove_cards (hole_cards ++ community_cards)).remove_cards [])
      [] [] (remove_cards_nodup hnd0) (by omega)
    have hif : (if 5 - community_cards.length > 0
        then ((Deck.new.remove_cards (hole_cards ++ community_cards)).draw
          (shuffle 0) (5 - community_cards.length)).1
        else some []) = some [] := by
      rw [if_neg hgt]
    simp only [runTrial, hif, Option.some_bind, hres]
    exact ⟨_, rfl⟩

lemma pythonMax_isSome {l : List HandRank} (h : l ≠ []) :
    ∃ b, pythonMax l = some b := by
  cases l with
  | nil => exact absurd rfl h
  | cons a t => exact ⟨_, rfl⟩

lemma simLoop_sum (shuffle : Nat → Nat → List Card → List Card)
    (hole_cards community_cards : List Card) (num_opponents : Nat) :
    ∀ (n w t l : Nat),
      simLoop shuffle hole_cards community_cards num_opponents n = some (w, t, l) →
      w + t + l = n := by
  intro n
  induction n with
  | zero =>
    intro w t l h
    simp only [simLoop, Option.some.injEq, Prod.mk.injEq] at h
    omega
  | succ n ih =>
    intro w t l h
    rw [simLoop, Option.bind_eq_some] at h
    obtain ⟨⟨w', t', l'⟩, hprev, h2⟩ := h
    rw [Option.bind_eq_some] at h2
    obtain ⟨td, _, h3⟩ := h2
    rw [Option.bind_eq_some] at h3
    obtain ⟨best, _, h4⟩ := h3
    have hsum := ih w' t' l' hprev
    split_ifs at h4 <;>
      simp only [Option.some.injEq, Prod.mk.injEq] at h4 <;> omega

lemma simLoop_isSome (shuffle : Nat → Nat → List Card → List Card)
    (hsh : ∀ j i l, (shuffle j i l).Perm l)
    (hole_cards community_cards : List Card) (num_opponents : Nat)
    (hnopp : 1 ≤ num_opponents)
    (hfit : (5 - community_cards.length) + 2 * num_opponents
      ≤ (Deck.new.remove_cards (hole_cards ++ community_cards)).cards.length) :
    ∀ n, ∃ wtl, simLoop shuffle hole_cards community_cards num_opponents n = some wtl := by
  intro n
  induction n with
  | zero => exact ⟨_, rfl⟩
  | succ n ih =>
    obtain ⟨wtl, hw⟩ := ih
    obtain ⟨td, htd⟩ := runTrial_isSome (shuffle n) (hsh n) hole_cards
      community_cards num_opponents hfit
    have hlen := (runTrial_spec (shuffle n) (hsh n) _ _ _ td htd).1
    obtain ⟨best, hbest⟩ := pythonMax_isSome (l := td.opp_hands) (by
      intro e
      rw [e] at hlen
      simp at hlen
      omega)
    simp only [simLoop, hw, htd, hbest, Option.some_bind]
    exact ⟨_, rfl⟩

/-- With zero opponents every trial calls Python `max` on an empty list,
which raises ValueError; the tally therefore never completes. -/
lemma simLoop_zero_opponents (shuffle : Nat → Nat → List Card → List Card)
    (hsh : ∀ j i l, (shuffle j i l).Perm l)
    (hole_cards community_cards : List Card) (n : Nat) :
    simLoop shuffle hole_cards community_cards 0 (n + 1) = none := by
  rw [simLoop]
  cases hprev : simLoop shuffle hole_cards community_cards 0 n with
  | none => rfl
  | some wtl =>
    rw [Option.some_bind]
    cases htd : runTrial (shuffle n) hole_cards community_cards 0 with
    | none => rfl
    | some td =>
      rw [Option.some_bind]
      have hlen := (runTrial_spec (shuffle n) (hsh n) _ _ _ td htd).1
      rw [List.length_eq_zero.mp hlen]
      rfl

/-! ### Claim theorems -/

lemma evaluate_hand_five (cards : List Card) (h5 : cards.length = 5) :
    evaluate_hand cards = updBest (0, []) (evaluate_five_cards cards) := by
  unfold evaluate_hand
  rw [if_neg (by omega), ← h5, List.sublistsLen_length]
  rfl

lemma evaluate_hand_five_mixed (cards : List Card) (target : List Int)
    (h5 : cards.length = 5)
    (hsuits : (cards.map Card.suit).dedup.length ≠ 1)
    (hranks : (cards.map Card.value).Perm target) :
    evaluate_hand cards = updBest (0, []) (eval5core target false) := by
  rw [evaluate_hand_five cards h5]
  unfold evaluate_five_cards
  rw [show ((cards.map Card.suit).dedup.length == 1) = false from
    beq_eq_false_iff_ne.mpr hsuits]
  rw [eval5core_perm (by simp [h5]) hranks]

/-- C1: a five-card hand whose ranks are exactly {A,2,3,4,5} and whose suits
are not all equal evaluates to category 4 (straight) with the ace-low key
`[3,2,1,0,-1]`; it compares strictly below any mixed-suit {2,3,4,5,6}
straight and strictly above every category-0 hand under the
category-then-lexicographic ordering. -/
theorem wheel_straight_spec (cards : List Card)
    (h5 : cards.length = 5)
    (hranks : (cards.map Card.value).Perm [12, 3, 2, 1, 0])
    (hsuits : (cards.map Card.suit).dedup.length ≠ 1) :
    evaluate_hand cards = (4, [3, 2, 1, 0, -1]) ∧
    handLt (evaluate_hand cards) (4, [4, 3, 2, 1, 0]) = true ∧
    (∀ c6 : List Card, c6.length = 5 → (c6.map Card.value).Perm [4, 3, 2, 1, 0] →
      (c6.map Card.suit).dedup.length ≠ 1 →
      evaluate_hand c6 = (4, [4, 3, 2, 1, 0]) ∧
        handLt (evaluate_hand cards) (evaluate_hand c6) = true) ∧
    (∀ other : List Card, (evaluate_hand other).1 = 0 →
      handLt (evaluate_hand other) (evaluate_hand cards) = true) := by
  have h1 : evaluate_hand cards = (4, [3, 2, 1, 0, -1]) := by
    rw [evaluate_hand_five_mixed cards [12, 3, 2, 1, 0] h5 hsuits hranks]
    decide
  refine ⟨h1, by rw [h1]; decide, ?_, ?_⟩
  · intro c6 hl6 hr6 hs6
    have h2 : evaluate_hand c6 = (4, [4, 3, 2, 1, 0]) := by
      rw [evaluate_hand_five_mixed c6 [4, 3, 2, 1, 0] hl6 hs6 hr6]
      decide
    exact ⟨h2, by rw [h1, h2]; decide⟩
  · intro other h0
    rw [h1]
    simp [handLt, h0]

/-- Witness for C1 at the concrete mixed-suit wheel A♠2♥3♦4♣5♠. -/
theorem wheel_straight_spec_witness :
    evaluate_hand [⟨"A", .spade⟩, ⟨"2", .heart⟩, ⟨"3", .diamond⟩,
      ⟨"4", .club⟩, ⟨"5", .spade⟩] = (4, [3, 2, 1, 0, -1]) :=
  (wheel_straight_spec _ (by decide) (by decide) (by decide)).1

set_option maxRecDepth 40000 in
/-- C4 counterexample: `evaluate_hand` signals no error outside 5..7 cards —
with 4 cards it returns the ranking `(0, [])`, and with 8 cards it returns
the best five-card ranking (here quad aces with king kicker), refuting the
claim that an InvalidCardCount error is raised. -/
theorem evaluator_card_count_counterexample :
    evaluate_hand [⟨"A", .spade⟩, ⟨"A", .heart⟩, ⟨"K", .spade⟩,
        ⟨"Q", .diamond⟩] = (0, []) ∧
    evaluate_hand [⟨"A", .spade⟩, ⟨"A", .heart⟩, ⟨"A", .diamond⟩, ⟨"A", .club⟩,
        ⟨"K", .spade⟩, ⟨"Q", .heart⟩, ⟨"J", .diamond⟩, ⟨"10", .club⟩]
      = (7, [12, 11]) := by
  constructor
  · decide
  · decide

/-- C4 amended: `evaluate_hand` never signals an error; for fewer than five
cards it returns the sentinel ranking `(0, [])` (and for more than seven it
evaluates the best five-card subset normally, as the counterexample shows). -/
theorem evaluator_card_count_amended (cards : List Card)
    (h : cards.length < 5) : evaluate_hand cards = (0, []) := by
  rw [evaluate_hand, if_pos h]

/-- Witness for the amended C4 at a concrete 1-card input. -/
theorem evaluator_card_count_witness :
    evaluate_hand [⟨"A", .spade⟩] = (0, []) :=
  evaluator_card_count_amended _ (by decide)

/-- C8: for 5–7 distinct cards, `evaluate_hand` returns the same
(category, key) pair on every permutation of its input. -/
theorem evaluate_hand_perm_invariant (c₁ c₂ : List Card)
    (h5 : 5 ≤ c₁.length) (h7 : c₁.length ≤ 7) (hnd : c₁.Nodup)
    (hp : c₁.Perm c₂) : evaluate_hand c₁ = evaluate_hand c₂ :=
  evaluate_hand_perm hp

/-- Witness for C8: a concrete 5-card hand and a reordering of it. -/
theorem evaluate_hand_perm_invariant_witness :
    evaluate_hand [⟨"A", .spade⟩, ⟨"K", .heart⟩, ⟨"7", .diamond⟩,
        ⟨"4", .club⟩, ⟨"2", .spade⟩]
      = evaluate_hand [⟨"2", .spade⟩, ⟨"7", .diamond⟩, ⟨"A", .spade⟩,
          ⟨"K", .heart⟩, ⟨"4", .club⟩] :=
  evaluate_hand_perm_invariant _ _ (by decide) (by decide) (by decide) (by decide)

/-- C10: for any deck with distinct cards and any `n` within the remaining
size, `draw` returns `n` pairwise-distinct cards, all members of the deck,
and leaves the deck's card collection unchanged. -/
theorem deck_draw_spec (d : Deck) (sh : List Card → List Card)
    (hsh : (sh d.cards).Perm d.cards) (hnd : d.cards.Nodup) (n : Nat)
    (hn : n ≤ d.cards.length) :
    ∃ out, d.draw sh n = (some out, d) ∧ out.length = n ∧ out.Nodup ∧
      ∀ c ∈ out, c ∈ d.cards := by
  have hdraw : (d.draw sh n).1 = some ((sh d.cards).take n) := by
    unfold Deck.draw
    rw [if_pos hn]
  obtain ⟨hl, hs, hnd', _⟩ := draw_inv hsh hdraw
  refine ⟨(sh d.cards).take n, ?_, hl, hnd' hnd, hs⟩
  unfold Deck.draw
  rw [if_pos hn]

/-- Witness for C10: drawing three cards from a fresh deck under the
identity shuffle. -/
theorem deck_draw_spec_witness :
    ∃ out, Deck.new.draw id 3 = (some out, Deck.new) ∧ out.length = 3 ∧
      out.Nodup ∧ ∀ c ∈ out, c ∈ Deck.new.cards :=
  deck_draw_spec Deck.new id (List.Perm.refl _) deck_new_nodup 3 (by decide)

/-- C2 counterexample: `calculate_win_probability` performs no input
validation — with a duplicated hole card (a caller-contract violation) it
still runs its trials to completion and produces a result, refuting the
claim that violations are detected before the first trial and that no
result is produced. -/
theorem equity_no_validation_counterexample :
    ¬ (([⟨"A", .spade⟩, ⟨"A", .spade⟩] : List Card) ++ []).Nodup ∧
    (calculate_win_probability (fun _ _ l => l)
      [⟨"A", .spade⟩, ⟨"A", .spade⟩] [] 1 1).isSome = true := by
  constructor
  · decide
  · decide

/-- C2 amended: no caller-contract violation is detected before the
trials; the simulation always starts its trial loop regardless of input
validity, and card-level violations — duplicated cards, a wrong number of
hole cards, too many community cards — produce a normal result rather than
an error.  The failures that do occur arise only while running, never as
an up-front validation: with at least one trial, at least one opponent and
draws that fit in the simulation deck a result is always produced (first
conjunct); with zero trials the final division raises ZeroDivisionError
(second conjunct); with zero opponents each trial's `max` of an empty hand
list raises ValueError (third conjunct); and an over-large draw raises
`random.sample`'s ValueError mid-trial. -/
theorem equity_no_validation_amended (shuffle : Nat → Nat → List Card → List Card)
    (hsh : ∀ j i l, (shuffle j i l).Perm l)
    (hole_cards community_cards : List Card) (num_opponents num_simulations : Nat)
    (hnopp : 1 ≤ num_opponents) (hns : 1 ≤ num_simulations)
    (hfit : (5 - community_cards.length) + 2 * num_opponents
      ≤ (Deck.new.remove_cards (hole_cards ++ community_cards)).cards.length) :
    (∃ res, calculate_win_probability shuffle hole_cards community_cards
      num_opponents num_simulations = some res) ∧
    calculate_win_probability shuffle hole_cards community_cards
      num_opponents 0 = none ∧
    calculate_win_probability shuffle hole_cards community_cards
      0 num_simulations = none := by
  refine ⟨?_, ?_, ?_⟩
  · obtain ⟨⟨w, t, l⟩, hsim⟩ := simLoop_isSome shuffle hsh hole_cards
      community_cards num_opponents hnopp hfit num_simulations
    simp only [calculate_win_probability, hsim, Option.some_bind,
      if_neg (by omega : ¬num_simulations = 0)]
    exact ⟨_, rfl⟩
  · rfl
  · obtain ⟨m, rfl⟩ : ∃ m, num_simulations = m + 1 := ⟨num_simulations - 1, by omega⟩
    rw [calculate_win_probability,
      simLoop_zero_opponents shuffle hsh hole_cards community_cards m]
    rfl

/-- Witness for the amended C2: three hole cards (a contract violation)
still yield a result with one opponent and two trials, while zero trials
and zero opponents yield the respective runtime failures. -/
theorem equity_no_validation_witness :
    (∃ res, calculate_win_probability (fun _ _ l => l)
      [⟨"A", .spade⟩, ⟨"K", .spade⟩, ⟨"Q", .spade⟩] [] 1 2 = some res) ∧
    calculate_win_probability (fun _ _ l => l)
      [⟨"A", .spade⟩, ⟨"K", .spade⟩, ⟨"Q", .spade⟩] [] 1 0 = none ∧
    calculate_win_probability (fun _ _ l => l)
      [⟨"A", .spade⟩, ⟨"K", .spade⟩, ⟨"Q", .spade⟩] [] 0 2 = none :=
  equity_no_validation_amended _ (fun _ _ l => List.Perm.refl l) _ _ _ _
    (by decide) (by decide) (by decide)

/-- C3 counterexample: on a valid pre-flop call (2 hole cards, no
community, fewer than 5 known cards) the `current_hand` field of the
result is the evaluated label "高牌" (high card), not the "no made hand
yet" report "尚未形成完整手牌", refuting the claim. -/
theorem current_hand_label_counterexample :
    ∃ res, calculate_win_probability (fun _ _ l => l)
        [⟨"A", .spade⟩, ⟨"K", .spade⟩] [] 1 1 = some res ∧
      res.current_hand = "高牌" ∧
      res.current_hand ≠ "尚未形成完整手牌" ∧
      (([⟨"A", .spade⟩, ⟨"K", .spade⟩] : List Card) ++ []).length < 5 := by
  have hsim : simLoop (fun _ _ l => l) [⟨"A", .spade⟩, ⟨"K", .spade⟩] [] 1 1
      = some (0, 0, 1) := by decide
  refine ⟨_, by rw [calculate_win_probability, hsim]; rfl, ?_, ?_, by decide⟩
  · decide
  · decide

/-- C3 amended: the `current_hand` field of the equity result is always
`hand_name` of the category of `evaluate_hand(hole+community)`; with fewer
than 5 known cards the evaluator returns category 0, so the label is "高牌"
(high card).  The "尚未形成完整手牌" ("no made hand yet") report exists
only in the separate `get_hand_strength` function, which
`calculate_win_probability` does not use. -/
theorem current_hand_label_amended (shuffle : Nat → Nat → List Card → List Card)
    (hole_cards community_cards : List Card) (num_opponents num_simulations : Nat)
    (res : EquityResult)
    (h : calculate_win_probability shuffle hole_cards community_cards
      num_opponents num_simulations = some res) :
    res.current_hand = hand_name (evaluate_hand (hole_cards ++ community_cards)).1 ∧
    ((hole_cards ++ community_cards).length < 5 → res.current_hand = "高牌") ∧
    ((hole_cards ++ community_cards).length < 5 →
      get_hand_strength hole_cards community_cards = (-1, "尚未形成完整手牌")) := by
  rw [calculate_win_probability, Option.bind_eq_some] at h
  obtain ⟨wtl, _, hres⟩ := h
  by_cases hns : num_simulations = 0
  · rw [if_pos hns] at hres
    exact Option.noConfusion hres
  rw [if_neg hns] at hres
  have e := Option.some.inj hres
  refine ⟨?_, ?_, ?_⟩
  · rw [← e]
  · intro hlt
    rw [← e]
    show hand_name (evaluate_hand (hole_cards ++ community_cards)).1 = "高牌"
    rw [evaluate_hand, if_pos hlt]
    rfl
  · intro hlt
    rw [get_hand_strength, if_neg (by omega)]

/-- Witness for the amended C3 at a concrete pre-flop call. -/
theorem current_hand_label_witness :
    ∃ res, calculate_win_probability (fun _ _ l => l)
        [⟨"A", .spade⟩, ⟨"Q", .spade⟩] [] 1 1 = some res ∧
      res.current_hand
        = hand_name (evaluate_hand ([⟨"A", .spade⟩, ⟨"Q", .spade⟩]
            ++ ([] : List Card))).1 := by
  have hsim : simLoop (fun _ _ l => l) [⟨"A", .spade⟩, ⟨"Q", .spade⟩] [] 1 1
      = some (0, 0, 1) := by decide
  obtain ⟨res, h⟩ : ∃ res, calculate_win_probability (fun _ _ l => l)
      [⟨"A", .spade⟩, ⟨"Q", .spade⟩] [] 1 1 = some res := by
    rw [calculate_win_probability, hsim]
    exact ⟨_, rfl⟩
  exact ⟨res, h, (current_hand_label_amended _ _ _ _ _ res h).1⟩

/-- C5 counterexample: at a complete 5-card board `calculate_outs` returns
only the outs count and description — the improvement-probability and
improving-cards fields are absent — refuting the claim that every result
carries all four OutsResult fields. -/
theorem outs_fields_counterexample :
    (calculate_outs [⟨"A", .spade⟩, ⟨"A", .heart⟩]
        [⟨"2", .heart⟩, ⟨"3", .diamond⟩, ⟨"4", .club⟩, ⟨"7", .spade⟩,
          ⟨"9", .heart⟩]).immediate_odds = none ∧
    (calculate_outs [⟨"A", .spade⟩, ⟨"A", .heart⟩]
        [⟨"2", .heart⟩, ⟨"3", .diamond⟩, ⟨"4", .club⟩, ⟨"7", .spade⟩,
          ⟨"9", .heart⟩]).improving_cards = none := by
  constructor
  · rfl
  · rfl

/-- C5 amended: for fewer than 5 community cards the result carries all
four fields — outs count, `some` immediate-improvement probability equal to
outs divided by the remaining deck size (0 if the deck is empty), a `some`
sample of at most 10 improving cards, and the description; at a complete
board (≥ 5 community cards) it carries only the outs count 0 and the
at-river description, with the other two fields absent. -/
theorem outs_fields_amended (hole_cards community_cards : List Card) :
    (community_cards.length < 5 →
      (calculate_outs hole_cards community_cards).outs
          = (improvingCards hole_cards community_cards).length ∧
      (calculate_outs hole_cards community_cards).immediate_odds
          = some (if (Deck.new.remove_cards
                (hole_cards ++ community_cards)).cards.length > 0
              then ((improvingCards hole_cards community_cards).length : Rat)
                  / ((Deck.new.remove_cards
                    (hole_cards ++ community_cards)).cards.length : Rat)
              else 0) ∧
      (calculate_outs hole_cards community_cards).improving_cards
          = some ((improvingCards hole_cards community_cards).take 10) ∧
      (calculate_outs hole_cards community_cards).description
          = "有" ++ toString (improvingCards hole_cards community_cards).length
              ++ "张out牌可以改进手牌") ∧
    (5 ≤ community_cards.length →
      calculate_outs hole_cards community_cards
        = ⟨0, none, none, "已经是河牌圈"⟩) := by
  constructor
  · intro hlt
    rw [calculate_outs, if_neg (by omega)]
    exact ⟨rfl, rfl, rfl, rfl⟩
  · intro hge
    rw [calculate_outs, if_pos (by omega)]

/-- Witness for the amended C5: a flop call carries the optional fields,
a river call does not. -/
theorem outs_fields_witness :
    (calculate_outs [⟨"A", .spade⟩, ⟨"A", .heart⟩]
        [⟨"2", .heart⟩, ⟨"3", .diamond⟩, ⟨"4", .club⟩]).improving_cards
      = some ((improvingCards [⟨"A", .spade⟩, ⟨"A", .heart⟩]
          [⟨"2", .heart⟩, ⟨"3", .diamond⟩, ⟨"4", .club⟩]).take 10) ∧
    calculate_outs [⟨"A", .spade⟩, ⟨"A", .heart⟩]
        [⟨"2", .heart⟩, ⟨"3", .diamond⟩, ⟨"4", .club⟩, ⟨"7", .spade⟩,
          ⟨"9", .heart⟩]
      = ⟨0, none, none, "已经是河牌圈"⟩ :=
  ⟨((outs_fields_amended _ _).1 (by decide)).2.2.1,
    (outs_fields_amended _ _).2 (by decide)⟩

/-- C6: a remaining deck card is counted as an out exactly when the best
category of hole+community+card strictly exceeds the best category of
hole+community; the outs count is the number of such cards, and a card
that leaves the category unchanged (improving only the tie-break) is never
counted. -/
theorem outs_counting_spec (hole_cards community_cards : List Card)
    (h : community_cards.length < 5) :
    (calculate_outs hole_cards community_cards).outs
        = (improvingCards hole_cards community_cards).length ∧
    (∀ card, card ∈ improvingCards hole_cards community_cards ↔
      card ∈ (Deck.new.remove_cards (hole_cards ++ community_cards)).cards ∧
        (evaluate_hand (hole_cards ++ community_cards)).1
          < (evaluate_hand (hole_cards ++ community_cards ++ [card])).1) ∧
    (∀ card ∈ (Deck.new.remove_cards (hole_cards ++ community_cards)).cards,
      (evaluate_hand (hole_cards ++ community_cards ++ [card])).1
          = (evaluate_hand (hole_cards ++ community_cards)).1 →
        card ∉ improvingCards hole_cards community_cards) := by
  refine ⟨?_, ?_, ?_⟩
  · rw [calculate_outs, if_neg (by omega)]
  · intro card
    rw [improvingCards, List.mem_filter]
    simp only [decide_eq_true_eq]
  · intro card _ heq
    rw [improvingCards, List.mem_filter]
    rintro ⟨_, hlt⟩
    rw [decide_eq_true_eq, heq] at hlt
    exact lt_irrefl _ hlt

/-- Witness for C6 on a concrete flop. -/
theorem outs_counting_spec_witness :
    (calculate_outs [⟨"A", .spade⟩, ⟨"A", .heart⟩]
        [⟨"2", .heart⟩, ⟨"3", .diamond⟩, ⟨"4", .club⟩]).outs
      = (improvingCards [⟨"A", .spade⟩, ⟨"A", .heart⟩]
          [⟨"2", .heart⟩, ⟨"3", .diamond⟩, ⟨"4", .club⟩]).length :=
  (outs_counting_spec _ _ (by decide)).1

/-- C7: each trial of a valid simulation increments exactly one of the
win/tie/loss counters, so the counters sum to the trial count and the
returned rates sum to exactly 1 (in the exact-rational model of the
source's floating-point division, which is well within the claimed
`1/trial_count` tolerance). -/
theorem equity_rates_sum_spec (shuffle : Nat → Nat → List Card → List Card)
    (hole_cards community_cards : List Card) (num_opponents num_simulations : Nat)
    (hns : 1 ≤ num_simulations) (res : EquityResult)
    (h : calculate_win_probability shuffle hole_cards community_cards
      num_opponents num_simulations = some res) :
    res.win_rate + res.tie_rate + res.loss_rate = 1 ∧
    ∃ w t l, simLoop shuffle hole_cards community_cards num_opponents
        num_simulations = some (w, t, l) ∧ w + t + l = num_simulations := by
  rw [calculate_win_probability, Option.bind_eq_some] at h
  obtain ⟨⟨w, t, l⟩, hsim, hres⟩ := h
  rw [if_neg (by omega : ¬num_simulations = 0)] at hres
  have hsum := simLoop_sum shuffle hole_cards community_cards num_opponents
    num_simulations w t l hsim
  refine ⟨?_, w, t, l, hsim, hsum⟩
  rw [← Option.some.inj hres]
  show (w : Rat) / (num_simulations : Rat) + (t : Rat) / (num_simulations : Rat)
      + (l : Rat) / (num_simulations : Rat) = 1
  rw [div_add_div_same, div_add_div_same]
  rw [show ((w : Rat) + (t : Rat) + (l : Rat)) = ((num_simulations : Nat) : Rat) by
    rw [← hsum]
    push_cast
    ring]
  exact div_self (Nat.cast_ne_zero.mpr (by omega))

/-- Witness for C7: a concrete one-trial simulation whose rates sum to 1. -/
theorem equity_rates_sum_spec_witness :
    ∃ res, calculate_win_probability (fun _ _ l => l)
        [⟨"A", .spade⟩, ⟨"K", .spade⟩] [] 1 1 = some res ∧
      res.win_rate + res.tie_rate + res.loss_rate = 1 := by
  have hsim : simLoop (fun _ _ l => l) [⟨"A", .spade⟩, ⟨"K", .spade⟩] [] 1 1
      = some (0, 0, 1) := by decide
  obtain ⟨res, h⟩ : ∃ res, calculate_win_probability (fun _ _ l => l)
      [⟨"A", .spade⟩, ⟨"K", .spade⟩] [] 1 1 = some res := by
    rw [calculate_win_probability, hsim]
    exact ⟨_, rfl⟩
  exact ⟨res, h,
    (equity_rates_sum_spec _ _ _ _ _ (by omega) res h).1⟩

/-- C9: within one successful trial, the hole cards, the completed 5-card
community and all opponents' hole cards together contain no card twice:
every draw comes from a deck from which all previously known and
previously drawn cards of that trial were excluded. -/
theorem trial_no_duplicate_cards (shuffle : Nat → List Card → List Card)
    (hsh : ∀ i l, (shuffle i l).Perm l) (hole_cards community_cards : List Card)
    (num_opponents : Nat) (hknown : (hole_cards ++ community_cards).Nodup)
    (td : TrialData)
    (h : runTrial shuffle hole_cards community_cards num_opponents = some td) :
    (hole_cards ++ td.full_community ++ td.opp_holes.flatten).Nodup :=
  (runTrial_spec shuffle hsh hole_cards community_cards num_opponents td h).2 hknown

/-- Witness for C9: a concrete pre-flop trial under the identity shuffle. -/
theorem trial_no_duplicate_cards_witness :
    ∃ td, runTrial (fun _ l => l) [⟨"A", .spade⟩, ⟨"K", .spade⟩] [] 1 = some td ∧
      (([⟨"A", .spade⟩, ⟨"K", .spade⟩] : List Card) ++ td.full_community
        ++ td.opp_holes.flatten).Nodup := by
  have hs : (runTrial (fun _ l => l)
      [⟨"A", .spade⟩, ⟨"K", .spade⟩] [] 1).isSome = true := by decide
  obtain ⟨td, h⟩ := Option.isSome_iff_exists.mp hs
  exact ⟨td, h, trial_no_duplicate_cards _ (fun _ l => List.Perm.refl l)
    _ _ _ (by decide) td h⟩

end Poker
